import Mathlib

/-!
Verification development for the parsing/patching core of the
`ollama_chat_app` repository (source of truth: `src/src/App.jsx`, which is
the most complete variant of the duplicated core, as the spec notes in §9;
the older snapshot `src/unnamed/part_000` differs only by lacking the fuzzy
fallback in the patch engine).

Strings are modelled as `List Char` (`Str`).  JavaScript string primitives
used by the code (`lastIndexOf`, `substring` splicing, `split('\n')`,
`join('\n')`, `trim`, first-occurrence `replace`, `includes`, `slice`) are
given as executable Lean functions with the same semantics.  The few JS
regexes the core uses are embedded as bespoke backtracking matchers that
follow the exact pattern structure (greedy `\s*`, optional `\r?`, lazy
`([\s\S]*?)` groups, ordered alternation, `i` flag as ASCII case folding).
Null/undefined inputs guarded by JS truthiness checks are modelled as the
empty string / empty list, which take the same branch.
-/

abbrev Str := List Char

/-- Whitespace class used for JS `\s` and `String.prototype.trim`
(ASCII part: space, tab, newline, carriage return, vertical tab, form feed). -/
def isWsChar (c : Char) : Bool :=
  c == ' ' || c == '\t' || c == '\n' || c == '\r' || c == '\x0b' || c == '\x0c'

/-- JS `String.prototype.trim`: drop whitespace from both ends. -/
def trimStr (s : Str) : Str :=
  ((s.dropWhile isWsChar).reverse.dropWhile isWsChar).reverse

/-- JS `String.prototype.split(sep)` for a one-character separator:
always returns at least one (possibly empty) piece. -/
def splitOnChar (sep : Char) : Str → List Str
  | [] => [[]]
  | c :: rest =>
    if c == sep then [] :: splitOnChar sep rest
    else
      match splitOnChar sep rest with
      | [] => [[c]]
      | h :: t => (c :: h) :: t

/-- JS `split('\n')`. -/
def splitOnNl (s : Str) : List Str := splitOnChar '\n' s

/-- JS `Array.prototype.join('\n')`. -/
def joinNl (ls : List Str) : Str := List.intercalate ['\n'] ls

/-- Substring occurrence test: `s` occurs in `t` starting at offset `i`. -/
def occursAt (t s : Str) (i : Nat) : Bool := s.isPrefixOf (t.drop i)

/-- Helper scanning offsets `m, m-1, ..., 0` for the rightmost occurrence. -/
def lastIndexOfAux (t s : Str) : Nat → Option Nat
  | 0 => if occursAt t s 0 then some 0 else none
  | i + 1 => if occursAt t s (i + 1) then some (i + 1) else lastIndexOfAux t s i

/-- JS `String.prototype.lastIndexOf` (with `none` standing for `-1`):
the largest offset `i ≤ t.length` at which `s` occurs in `t`. -/
def lastIndexOf (t s : Str) : Option Nat := lastIndexOfAux t s t.length

/-- Number of offsets at which `s` occurs in `t` (plain substring search). -/
def occCount (t s : Str) : Nat :=
  ((List.range (t.length + 1)).filter (fun i => occursAt t s i)).length

/-- Replace the length-`len` segment of `t` starting at `i` by `r`
(JS `t.substring(0, i) + r + t.substring(i + len)`). -/
def splice (t : Str) (i len : Nat) (r : Str) : Str :=
  t.take i ++ r ++ t.drop (i + len)

/-- JS `String.prototype.replace` with a plain-string pattern:
replace the first occurrence of `tgt` in the string by `repl`. -/
def replaceFirst : Str → Str → Str → Str
  | [], tgt, repl => if tgt.isPrefixOf ([] : Str) then repl else []
  | c :: cs, tgt, repl =>
    if tgt.isPrefixOf (c :: cs) then repl ++ (c :: cs).drop tgt.length
    else c :: replaceFirst cs tgt repl

/-- JS `String.prototype.includes` (substring containment). -/
def strIncludes : Str → Str → Bool
  | hay, needle =>
    if needle.isPrefixOf hay then true
    else
      match hay with
      | [] => false
      | _ :: cs => strIncludes cs needle

/-!
## PathSanitizer — `validateAndSanitizePath` (App.jsx lines 508-516)

```js
const validateAndSanitizePath = (path) => {
  if (!path || typeof path !== 'string') return 'unknown.txt';
  let sanitized = path.replace(/\.\./g, '').replace(/\\/g, '/').trim();
  sanitized = sanitized.replace(/[<>:"|?*]/g, '');
  if (!sanitized.includes('.') && !sanitized.endsWith('/')) {
    sanitized += '.txt';
  }
  return sanitized;
};
```
-/

/-- JS `path.replace(/\.\./g, '')`: remove non-overlapping `..` pairs,
scanning left to right. -/
def removeDotDot : Str → Str
  | [] => []
  | '.' :: '.' :: rest => removeDotDot rest
  | c :: rest => c :: removeDotDot rest

/-- Characters stripped by `replace(/[<>:"|?*]/g, '')`. -/
def isForbiddenPathChar (c : Char) : Bool :=
  c == '<' || c == '>' || c == ':' || c == '\x22' || c == '|' || c == '?' || c == '*'

/-- The path sanitizer.  A null/undefined/empty argument (JS falsy) is
modelled by the empty list. -/
def validateAndSanitizePath (path : Str) : Str :=
  if path = [] then "unknown.txt".toList
  else
    let sanitized := trimStr ((removeDotDot path).map (fun c => if c == '\\' then '/' else c))
    let sanitized := sanitized.filter (fun c => !isForbiddenPathChar c)
    if !('.' ∈ sanitized) && !(sanitized.getLast? == some '/') then
      sanitized ++ ".txt".toList
    else sanitized

/-!
## PatchEngine — `applySearchReplace` (App.jsx lines 892-991)

One search/replace operation; the code also stores `type: 'search_replace'`,
which is informational and not modelled.
-/

structure Op where
  search : Str
  replace : Str
deriving DecidableEq, Repr

/-- Per-operation failure record (`index`, truncated `search` preview and
`reason`; the `debug` sub-object of previews/lengths is informational and
not modelled). -/
structure FailureInfo where
  index : Nat
  search : Str
  reason : Str
deriving DecidableEq, Repr

structure ApplyResult where
  result : Str
  appliedCount : Nat
  failedOps : List FailureInfo
deriving DecidableEq, Repr

/-- Does the run of `ts.length` content lines of `ls` starting at line `k`
match the (already trimmed) search lines `ts` up to per-line trimming?
This is the inner `for (j ...)` comparison loop of the fuzzy fallback,
including the final `potentialMatch.length === searchLines.length` check. -/
def runMatches (ls ts : List Str) (k : Nat) : Bool :=
  decide (k + ts.length ≤ ls.length) && ((ls.drop k).take ts.length).map trimStr == ts

/-- Scan candidate start lines `m, m-1, ..., 0` (the code's
`for (startIdx = resultLines.length - 1; startIdx >= 0; startIdx--)`). -/
def findFuzzyGo (ls ts : List Str) : Nat → Option Nat
  | 0 => if runMatches ls ts 0 then some 0 else none
  | k + 1 => if runMatches ls ts (k + 1) then some (k + 1) else findFuzzyGo ls ts k

/-- First fuzzy-match start line found scanning from the end backward. -/
def findFuzzyIdx (ls ts : List Str) : Option Nat :=
  findFuzzyGo ls ts (ls.length - 1)

/-- The fuzzy-branch replacement string:
`beforeMatch + (beforeMatch ? '\n' : '') + replace + (afterMatch ? '\n' : '') + afterMatch`. -/
def fuzzyReplace (resultLines : List Str) (searchLen : Nat) (replace : Str) (k : Nat) : Str :=
  let beforeMatch := joinNl (resultLines.take k)
  let afterMatch := joinNl (resultLines.drop (k + searchLen))
  beforeMatch ++ (if beforeMatch = [] then [] else ['\n']) ++ replace
    ++ (if afterMatch = [] then [] else ['\n']) ++ afterMatch

/-- One operation applied to the current `result` string: exact rightmost
substring match first, then the fuzzy line-trim fallback; `none` when both
stages fail (the operation is then recorded in `failedOps`). -/
def applyOne (result search replace : Str) : Option Str :=
  match lastIndexOf result search with
  | some idx => some (result.take idx ++ replace ++ result.drop (idx + search.length))
  | none =>
    let resultLines := splitOnNl result
    let searchTrimmed := (splitOnNl search).map trimStr
    match findFuzzyIdx resultLines searchTrimmed with
    | some k => some (fuzzyReplace resultLines searchTrimmed.length replace k)
    | none => none

/-- The `failedOps` entry pushed for a failing operation (`index` is the
1-based original position; the preview truncates `search` to 100 chars). -/
def failureFor (idx : Nat) (op : Op) : FailureInfo :=
  ⟨idx + 1,
   op.search.take 100 ++ (if 100 < op.search.length then "...".toList else []),
   "No exact or fuzzy match found. Check whitespace and indentation.".toList⟩

/-- The main operation loop; its argument is the indexed operation list in
processing order (the code iterates `i = sortedOperations.length - 1 ... 0`,
i.e. reverse declaration order). -/
def applyLoop : List (Nat × Op) → Str → ApplyResult
  | [], res => ⟨res, 0, []⟩
  | (idx, op) :: rest, res =>
    match applyOne res op.search op.replace with
    | some res2 =>
      let r := applyLoop rest res2
      ⟨r.result, r.appliedCount + 1, r.failedOps⟩
    | none =>
      let r := applyLoop rest res
      ⟨r.result, r.appliedCount, failureFor idx op :: r.failedOps⟩

/-- `applySearchReplace(originalContent, operations)` (the App.jsx variant
with the fuzzy fallback).  Null-ish/empty `originalContent` or `operations`
(JS falsy / length 0) short-circuits; otherwise the first 20 operations are
applied in reverse declaration order. -/
def applySearchReplace (originalContent : Str) (operations : List Op) : ApplyResult :=
  if originalContent = [] ∨ operations = [] then ⟨originalContent, 0, []⟩
  else applyLoop ((operations.take 20).enum.reverse) originalContent

/-!
## ArtifactReconciler — `deduplicateArtifacts` (App.jsx lines 547-557) and
`findTargetFileForEdit` (App.jsx lines 1349-1374)

Only the fields the core reads are modelled (`path` as dedup key and match
target; `content` as representative payload).  The remaining fields
(`language`, `id`, timestamps, ...) are informational for these functions.
-/

structure Artifact where
  path : Str
  content : Str
deriving DecidableEq, Repr

/-- The `filter` with a `seen` set of paths: keep an artifact iff its path
was not seen before it. -/
def dedupGo (seen : List Str) : List Artifact → List Artifact
  | [] => []
  | a :: rest =>
    if a.path ∈ seen then dedupGo seen rest
    else a :: dedupGo (a.path :: seen) rest

def deduplicateArtifacts (artifacts : List Artifact) : List Artifact :=
  dedupGo [] artifacts

/-- `normalizePath`: lowercase, backslashes to forward slashes, strip one
leading `./` or `/` (the regex `/^\.?\//`). -/
def stripLeadingDotSlash : Str → Str
  | '.' :: '/' :: rest => rest
  | '/' :: rest => rest
  | s => s

def normalizePath (p : Str) : Str :=
  stripLeadingDotSlash (p.map (fun c => if c.toLower == '\\' then '/' else c.toLower))

/-- `split('/').pop()`: the final path segment. -/
def lastSeg (s : Str) : Str := (splitOnChar '/' s).getLastD []

/-- Stage 1: exact match on normalized paths. -/
def stage1 (editPath : Str) (a : Artifact) : Bool :=
  normalizePath a.path == normalizePath editPath

/-- Stage 2: basename match. -/
def stage2 (editPath : Str) (a : Artifact) : Bool :=
  lastSeg (normalizePath a.path) == lastSeg (normalizePath editPath)

/-- Stage 3: substring containment either direction. -/
def stage3 (editPath : Str) (a : Artifact) : Bool :=
  strIncludes (normalizePath a.path) (normalizePath editPath)
    || strIncludes (normalizePath editPath) (normalizePath a.path)

/-- `findTargetFileForEdit(artifacts, editPath)`: each stage is a full pass
over the first 50 artifacts, so the three loops are three `find?`s. -/
def findTargetFileForEdit (artifacts : List Artifact) (editPath : Str) : Option Artifact :=
  if artifacts = [] then none
  else
    match (artifacts.take 50).find? (stage1 editPath) with
    | some a => some a
    | none =>
      match (artifacts.take 50).find? (stage2 editPath) with
      | some a => some a
      | none => (artifacts.take 50).find? (stage3 editPath)

/-- Modelled from the claim/spec wording of the resolution cascade (for the
refinement comparison): strict-to-loose stages over the *whole* artifact
list, first match of the earliest successful stage, `null` when no stage
matches.  The claim does not mention the 50-artifact cap. -/
def resolveTargetSpec (artifacts : List Artifact) (editPath : Str) : Option Artifact :=
  match artifacts.find? (stage1 editPath) with
  | some a => some a
  | none =>
    match artifacts.find? (stage2 editPath) with
    | some a => some a
    | none => artifacts.find? (stage3 editPath)

/-!
## ResponseParser — `parseSearchReplace` (App.jsx lines 869-889) and the
edit-block stage of `parseLLMResponse` (App.jsx lines 1016-1103)

The JS regexes are embedded as matchers with JS backtracking semantics.
-/

/-- Consume a literal. -/
def matchLit : Str → Str → Option Str
  | [], s => some s
  | _, [] => none
  | l :: ls, c :: cs => if l == c then matchLit ls cs else none

/-- Consume a literal case-insensitively (the `i` flag; ASCII folding). -/
def matchLitCI : Str → Str → Option Str
  | [], s => some s
  | _, [] => none
  | l :: ls, c :: cs => if l.toLower == c.toLower then matchLitCI ls cs else none

/-- Length of the maximal whitespace prefix. -/
def wsRun : Str → Nat
  | [] => 0
  | c :: cs => if isWsChar c then wsRun cs + 1 else 0

/-- The suffixes a greedy `\s*` leaves for the rest of the pattern, in
backtracking priority order (maximal consumption first). -/
def wsSplits (s : Str) : List Str :=
  (List.range (wsRun s + 1)).reverse.map (fun k => s.drop k)

/-- Match `\s*\r?\n`, returning the rest. -/
def matchWsNl (s : Str) : Option Str :=
  (wsSplits s).findSome? fun s1 =>
    match s1 with
    | '\r' :: '\n' :: rest => some rest
    | '\n' :: rest => some rest
    | _ => none

/-- Match `\s*\n`, returning the rest. -/
def matchWsNlPlain (s : Str) : Option Str :=
  (wsSplits s).findSome? fun s1 =>
    match s1 with
    | '\n' :: rest => some rest
    | _ => none

/-- A lazy group `([\s\S]*?)` followed by a terminator pattern: the group
takes the shortest prefix after which the whole continuation `term`
succeeds (JS lazy-quantifier backtracking order). -/
def lazyUntil {α : Type} (term : Str → Option α) : Str → Option (Str × α)
  | [] =>
    match term [] with
    | some a => some ([], a)
    | none => none
  | c :: cs =>
    match term (c :: cs) with
    | some a => some ([], a)
    | none =>
      match lazyUntil term cs with
      | some (g, a) => some (c :: g, a)
      | none => none

/-- The code fence literal (three backticks). -/
def fence : Str := "\x60\x60\x60".toList

/-- Terminator of an edit block body: `\r?\n` then the closing fence.
(When the `\r\n` branch fails deeper, the `\r?`-empty branch would need a
`\n` at a `\r`, which cannot succeed, so no fallthrough is needed.) -/
def matchTermClose (s : Str) : Option Str :=
  match s with
  | '\r' :: '\n' :: rest => matchLit fence rest
  | '\n' :: rest => matchLit fence rest
  | _ => none

/-- After the opening fence: `(?:edit)?\s*\r?\n` (greedy optional `edit`,
case-insensitive, with backtracking to the empty alternative). -/
def matchAfterFence (s : Str) : Option Str :=
  match matchLitCI "edit".toList s with
  | some s1 =>
    match matchWsNl s1 with
    | some r => some r
    | none => matchWsNl s
  | none => matchWsNl s

/-- Try the edit-block regex
```\x60\x60\x60(?:edit)?\s*\r?\n([\s\S]*?)\r?\n\x60\x60\x60``` (flags `gi`)
at this position; returns (captured body, rest after the whole match). -/
def matchEditBlockAt (s : Str) : Option (Str × Str) :=
  match matchLit fence s with
  | none => none
  | some s1 =>
    match matchAfterFence s1 with
    | none => none
    | some s2 =>
      match lazyUntil matchTermClose s2 with
      | some (body, rest) => some (body, rest)
      | none => none

/-- Leftmost edit-block match (`exec` scanning behavior). -/
def findEditBlock : Str → Option (Str × Str)
  | [] => none
  | c :: cs =>
    match matchEditBlockAt (c :: cs) with
    | some r => some r
    | none => findEditBlock cs

/-- The `while ((editMatch = editBlockRegex.exec(...)) !== null &&
editBlocks.length < 5)` loop: collect up to 5 block bodies, resuming each
search at the end of the previous match (`lastIndex`). -/
def scanEditBlocksGo : Nat → Str → List Str
  | 0, _ => []
  | n + 1, s =>
    match findEditBlock s with
    | none => []
    | some (body, rest) => body :: scanEditBlocksGo n rest

def scanEditBlocks (s : Str) : List Str := scanEditBlocksGo 5 s

/-- Continuation after the first lazy group of the SEARCH/REPLACE regex:
`\n=======\s*\n` then the second lazy group and `\n>>>>>>> REPLACE`;
returns (second group, rest after the whole match). -/
def srMid (s : Str) : Option (Str × Str) :=
  match matchLit "\n=======".toList s with
  | none => none
  | some s1 =>
    match matchWsNlPlain s1 with
    | none => none
    | some s2 => lazyUntil (matchLit "\n>>>>>>> REPLACE".toList) s2

/-- Try the regex
`<<<<<<< SEARCH\s*\n([\s\S]*?)\n=======\s*\n([\s\S]*?)\n>>>>>>> REPLACE`
at this position; returns (search, replace, rest after the match). -/
def matchSRAt (s : Str) : Option (Str × Str × Str) :=
  match matchLit "<<<<<<< SEARCH".toList s with
  | none => none
  | some s1 =>
    match matchWsNlPlain s1 with
    | none => none
    | some s2 =>
      match lazyUntil srMid s2 with
      | some (g1, (g2, rest)) => some (g1, g2, rest)
      | none => none

/-- Leftmost SEARCH/REPLACE match. -/
def findSR : Str → Option (Str × Str × Str)
  | [] => none
  | c :: cs =>
    match matchSRAt (c :: cs) with
    | some r => some r
    | none => findSR cs

/-- The `exec` loop of `parseSearchReplace`, capped at 10 operations. -/
def srLoop : Nat → Str → List Op
  | 0, _ => []
  | n + 1, s =>
    match findSR s with
    | none => []
    | some (g1, g2, rest) => ⟨g1, g2⟩ :: srLoop n rest

/-- `parseSearchReplace(content)`: null-ish or shorter-than-20 content
yields no operations; otherwise up to 10 SEARCH/REPLACE pairs are
extracted. -/
def parseSearchReplace (content : Str) : List Op :=
  if content.length < 20 then [] else srLoop 10 content

/-- The file-marker alternatives of
`/(?:@@@|\/\/\/|#|File:|file:|filename:)\s*(.+)/i`, in alternation order. -/
def markerAlts : List Str :=
  ["@@@".toList, "///".toList, "#".toList, "File:".toList, "file:".toList,
   "filename:".toList]

/-- JS `.` character class (anything but a line terminator; ASCII part). -/
def isDotChar (c : Char) : Bool := !(c == '\n' || c == '\r')

/-- Greedy `(.+)`: a maximal nonempty run of non-line-terminator chars. -/
def matchDotPlus (s : Str) : Option (Str × Str) :=
  let g := s.takeWhile isDotChar
  if g = [] then none else some (g, s.drop g.length)

/-- Try the file-marker regex at this position: ordered alternation of the
marker literals (case-insensitive), then `\s*` (greedy, backtracking), then
`(.+)`; returns (whole match, captured group). -/
def matchMarkerAt (s : Str) : Option (Str × Str) :=
  markerAlts.findSome? fun alt =>
    match matchLitCI alt s with
    | none => none
    | some s1 =>
      (wsSplits s1).findSome? fun s2 =>
        match matchDotPlus s2 with
        | none => none
        | some (g, rest) => some (s.take (s.length - rest.length), g)

/-- Leftmost file-marker match (`String.prototype.match` without `g`). -/
def findMarker : Str → Option (Str × Str)
  | [] => none
  | c :: cs =>
    match matchMarkerAt (c :: cs) with
    | some r => some r
    | none => findMarker cs

/-- The fallback scan of the first `min(3, lines.length)` lines for a
file-marker line, with its index. -/
def findLineMarker : List Str → Nat → Option (Nat × Str)
  | [], _ => none
  | l :: rest, i =>
    match findMarker l with
    | some (_, g) => some (i, g)
    | none => findLineMarker rest (i + 1)

/-- Per-block target-path extraction: the declared (sanitized) path, if
any, and the remaining edit content handed to `parseSearchReplace`. -/
def blockTarget (content : Str) : Option Str × Str :=
  match findMarker content with
  | some (full, g) =>
    (some (validateAndSanitizePath (trimStr g)), trimStr (replaceFirst content full []))
  | none =>
    match findLineMarker ((splitOnNl content).take 3) 0 with
    | some (i, g) =>
      (some (validateAndSanitizePath (trimStr g)),
       trimStr (joinNl ((splitOnNl content).drop (i + 1))))
    | none => (none, content)

/-- A consolidated edit group.  The code also carries `id`, `timestamp`,
`rawContent`, `parsedContent`, `applied` and `operationCount`
(side/informational fields; `operationCount` always equals
`operations.length`). -/
structure EditGroup where
  path : Str
  operations : List Op
deriving DecidableEq, Repr

/-- `targetFile || 'unknown'` (JS truthiness). -/
def jsOrUnknown (t : Option Str) : Str :=
  match t with
  | none => "unknown".toList
  | some p => if p = [] then "unknown".toList else p

/-- Append new operations to the existing group for this path (the
`editsByFile` Map keeps insertion order), or create a new group at the
end. -/
def insertOps (groups : List EditGroup) (p : Str) (ops : List Op) : List EditGroup :=
  match groups with
  | [] => [⟨p, ops⟩]
  | g :: gs =>
    if g.path == p then ⟨g.path, g.operations ++ ops⟩ :: gs
    else g :: insertOps gs p ops

/-- The `for (const block of editBlocks)` loop: blocks whose parsed
operation list is empty are skipped; the rest are merged by declared
path. -/
def buildGroups : List Str → List EditGroup → List EditGroup
  | [], acc => acc
  | b :: bs, acc =>
    let tc := blockTarget b
    let ops := parseSearchReplace tc.2
    if ops = [] then buildGroups bs acc
    else buildGroups bs (insertOps acc (jsOrUnknown tc.1) ops)

/-- The 50,000-character truncation with its visible marker. -/
def truncateMessage (m : Str) : Str :=
  if 50000 < m.length then m.take 50000 ++ "\n... (truncated for performance)".toList
  else m

/-- The `edits` component of `parseLLMResponse(message)`: the edit-block
extraction stage (the artifact and prose stages run later and do not feed
back into `edits`), with the final `edits.slice(0, 5)`. -/
def parseLLMResponseEdits (message : Str) : List EditGroup :=
  if message = [] then []
  else (buildGroups (scanEditBlocks (truncateMessage message)) []).take 5

/-- The full parse result record (`metadata` is informational and not
modelled; `content` and `artifacts` are produced by the stages outside the
claims under verification). -/
structure ParseResult where
  content : Str
  artifacts : List Artifact
  edits : List EditGroup
  instructions : List Str
deriving DecidableEq, Repr

/-- The `try { ... } catch (error) { ... }` shell of `parseLLMResponse`:
the body is a computation that may raise (modelled as `Except`); on any
internal error the function degrades to the original message with empty
artifact/edit/instruction lists. -/
def parseLLMResponseWith {ε : Type} (core : Str → Except ε ParseResult)
    (message : Str) : ParseResult :=
  match core message with
  | Except.ok r => r
  | Except.error _ => ⟨message, [], [], []⟩

/-!
## Basic facts about `lastIndexOf`
-/

theorem lastIndexOfAux_some {t s : Str} :
    ∀ {m i : Nat}, lastIndexOfAux t s m = some i → i ≤ m ∧ occursAt t s i = true := by
  intro m
  induction m with
  | zero =>
    intro i h
    simp only [lastIndexOfAux] at h
    split at h
    · cases h; exact ⟨Nat.le_refl 0, by assumption⟩
    · cases h
  | succ m ih =>
    intro i h
    simp only [lastIndexOfAux] at h
    split at h
    · cases h; exact ⟨Nat.le_refl _, by assumption⟩
    · obtain ⟨h1, h2⟩ := ih h
      exact ⟨Nat.le_succ_of_le h1, h2⟩

theorem lastIndexOfAux_isSome {t s : Str} :
    ∀ {m i : Nat}, i ≤ m → occursAt t s i = true → (lastIndexOfAux t s m).isSome := by
  intro m
  induction m with
  | zero =>
    intro i hi ho
    have : i = 0 := Nat.le_zero.mp hi
    subst this
    simp [lastIndexOfAux, ho]
  | succ m ih =>
    intro i hi ho
    simp only [lastIndexOfAux]
    split
    · rfl
    · rename_i hc
      by_cases he : i = m + 1
      · subst he; exact absurd ho (by simpa using hc)
      · exact ih (Nat.lt_succ_iff.mp (Nat.lt_of_le_of_ne hi he)) ho

theorem lastIndexOfAux_max {t s : Str} :
    ∀ {m i j : Nat}, lastIndexOfAux t s m = some i → j ≤ m → occursAt t s j = true →
      j ≤ i := by
  intro m
  induction m with
  | zero =>
    intro i j h hj _
    cases Nat.le_zero.mp hj
    exact Nat.zero_le _
  | succ m ih =>
    intro i j h hj ho
    simp only [lastIndexOfAux] at h
    split at h
    · cases h; exact hj
    · rename_i hc
      by_cases he : j = m + 1
      · subst he; exact absurd ho (by simpa using hc)
      · exact ih h (Nat.lt_succ_iff.mp (Nat.lt_of_le_of_ne hj he)) ho

/-- The specification of `lastIndexOf`: a `some i` answer is an occurrence,
lies within the string, and is the rightmost occurrence. -/
theorem lastIndexOf_spec {t s : Str} {i : Nat} (h : lastIndexOf t s = some i) :
    i ≤ t.length ∧ occursAt t s i = true ∧
      (∀ j, j ≤ t.length → occursAt t s j = true → j ≤ i) := by
  obtain ⟨h1, h2⟩ := lastIndexOfAux_some h
  exact ⟨h1, h2, fun j hj ho => lastIndexOfAux_max h hj ho⟩

theorem lastIndexOf_isSome {t s : Str} {i : Nat} (hi : i ≤ t.length)
    (ho : occursAt t s i = true) : (lastIndexOf t s).isSome :=
  lastIndexOfAux_isSome hi ho

/-- An occurrence decomposes the string around it. -/
theorem occursAt_decomp {t s : Str} {i : Nat} (h : occursAt t s i = true) :
    t = t.take i ++ s ++ t.drop (i + s.length) := by
  have hp : s <+: t.drop i := List.isPrefixOf_iff_prefix.mp h
  obtain ⟨rest, hrest⟩ := hp
  have hdrop : t.drop (i + s.length) = rest := by
    have h1 : List.drop s.length (t.drop i) = List.drop (i + s.length) t :=
      List.drop_drop s.length i t
    rw [← h1, ← hrest, List.drop_left]
  calc t = t.take i ++ t.drop i := (List.take_append_drop i t).symm
    _ = t.take i ++ (s ++ rest) := by rw [hrest]
    _ = t.take i ++ s ++ t.drop (i + s.length) := by rw [hdrop, List.append_assoc]

/-- An occurrence starting inside the string ends inside the string. -/
theorem occursAt_add_le {t s : Str} {i : Nat} (h : occursAt t s i = true)
    (hi : i ≤ t.length) : i + s.length ≤ t.length := by
  have hp : s <+: t.drop i := List.isPrefixOf_iff_prefix.mp h
  have := hp.length_le
  simp only [List.length_drop] at this
  omega

/-- With exactly one occurrence, `lastIndexOf` returns that occurrence. -/
theorem lastIndexOf_of_unique {T S : Str} {i : Nat} (hc : occCount T S = 1)
    (hi : i ≤ T.length) (ho : occursAt T S i = true) : lastIndexOf T S = some i := by
  obtain ⟨j, hj⟩ := Option.isSome_iff_exists.mp (lastIndexOf_isSome hi ho)
  obtain ⟨hjt, hjo, _⟩ := lastIndexOf_spec hj
  obtain ⟨a, ha⟩ := List.length_eq_one.mp hc
  have hmi : i ∈ (List.range (T.length + 1)).filter (fun k => occursAt T S k) := by
    rw [List.mem_filter, List.mem_range]
    exact ⟨Nat.lt_succ_of_le hi, ho⟩
  have hmj : j ∈ (List.range (T.length + 1)).filter (fun k => occursAt T S k) := by
    rw [List.mem_filter, List.mem_range]
    exact ⟨Nat.lt_succ_of_le hjt, hjo⟩
  rw [ha] at hmi hmj
  simp only [List.mem_singleton] at hmi hmj
  rw [hj, hmi, hmj]

/-!
## Single-operation behavior of the patch engine (shared helper)
-/

/-- A single operation whose search text is found by the exact
(`lastIndexOf`) stage replaces the rightmost occurrence and is counted. -/
theorem applySearchReplace_single {T S R : Str} {i : Nat} (hT : T ≠ [])
    (h : lastIndexOf T S = some i) :
    applySearchReplace T [⟨S, R⟩]
      = ⟨T.take i ++ R ++ T.drop (i + S.length), 1, []⟩ := by
  have hg : ¬(T = [] ∨ ([(⟨S, R⟩ : Op)] : List Op) = []) := by simp [hT]
  simp only [applySearchReplace, if_neg hg]
  show applyLoop [(0, ⟨S, R⟩)] T = _
  simp [applyLoop, applyOne, h]

/-!
## Claim C1 — single-operation round trip
-/

/-- C1 counterexample: for the empty original text and the empty search
string, the empty search occurs exactly once in the original (at offset 0,
and `lastIndexOf` finds it there), yet `applySearchReplace` takes the
falsy-input early return and reports `appliedCount = 0` with the text
unchanged, not `1` with the occurrence replaced. -/
theorem c1_counterexample :
    occCount ([] : Str) ([] : Str) = 1 ∧
    lastIndexOf ([] : Str) ([] : Str) = some 0 ∧
    applySearchReplace ([] : Str) [⟨([] : Str), "x".toList⟩] = ⟨([] : Str), 0, []⟩ ∧
    (applySearchReplace ([] : Str) [⟨([] : Str), "x".toList⟩]).appliedCount ≠ 1 := by
  decide

/-- C1 (amended: for every *nonempty* original text `T`): a single
operation replaces the rightmost occurrence of `S` in `T` found by plain
substring search, with `appliedCount = 1` and no failed operations; in
particular, when `S` occurs exactly once in `T`, that one occurrence is
replaced. -/
theorem c1_last_occurrence_replaced :
    (∀ (T S R : Str) (i : Nat), T ≠ [] → lastIndexOf T S = some i →
      applySearchReplace T [⟨S, R⟩]
        = ⟨T.take i ++ R ++ T.drop (i + S.length), 1, []⟩)
    ∧ (∀ (T S R : Str) (i : Nat), T ≠ [] → occCount T S = 1 → i ≤ T.length →
        occursAt T S i = true →
      applySearchReplace T [⟨S, R⟩]
        = ⟨T.take i ++ R ++ T.drop (i + S.length), 1, []⟩) := by
  constructor
  · intro T S R i hT h
    exact applySearchReplace_single hT h
  · intro T S R i hT hc hi ho
    exact applySearchReplace_single hT (lastIndexOf_of_unique hc hi ho)

/-- Witness for `c1_last_occurrence_replaced` at a concrete input. -/
theorem c1_last_occurrence_replaced_witness :
    ("ab".toList ≠ ([] : Str) ∧ lastIndexOf "ab".toList "a".toList = some 0) ∧
    applySearchReplace "ab".toList [⟨"a".toList, "c".toList⟩]
      = ⟨("ab".toList).take 0 ++ "c".toList
          ++ ("ab".toList).drop (0 + ("a".toList).length), 1, []⟩ :=
  ⟨⟨by decide, by decide⟩,
   c1_last_occurrence_replaced.1 _ _ _ 0 (by decide) (by decide)⟩

/-!
## Claim C4 — path sanitizer output guarantees
-/

/-- C4: the code contradicts the sanitizer's `..`-free output guarantee.
On the input `".<."` the `..`-removal pass (which runs first) finds
nothing, and the later forbidden-character pass deletes the `<` between
the two dots, re-creating a `..` in the returned string. -/
theorem c4_sanitize_dotdot_bug :
    validateAndSanitizePath ".<.".toList = "..".toList ∧
    strIncludes (validateAndSanitizePath ".<.".toList) "..".toList = true := by
  decide

/-!
## Claim C7 — parse never propagates an exception
-/

/-- C7: whatever the parse body does, if it raises an internal error the
`catch` shell returns the original message as `content` with empty
`artifacts` and `edits` (and `instructions`) lists. -/
theorem c7_parse_catch_returns_original :
    ∀ {ε : Type} (core : Str → Except ε ParseResult) (message : Str) (e : ε),
      core message = Except.error e →
      parseLLMResponseWith core message = ⟨message, [], [], []⟩ := by
  intro ε core message e h
  simp [parseLLMResponseWith, h]

/-- Witness for `c7_parse_catch_returns_original`: a body that throws. -/
theorem c7_parse_catch_returns_original_witness :
    (fun _ : Str => (Except.error 0 : Except Nat ParseResult)) "boom".toList
      = Except.error 0 ∧
    parseLLMResponseWith (fun _ : Str => (Except.error 0 : Except Nat ParseResult))
      "boom".toList = ⟨"boom".toList, [], [], []⟩ :=
  ⟨rfl, c7_parse_catch_returns_original _ _ 0 rfl⟩

/-!
## Claim C8 — totality and per-operation success/failure partition
-/

theorem applyLoop_partition :
    ∀ (l : List (Nat × Op)) (res : Str),
      (applyLoop l res).appliedCount + (applyLoop l res).failedOps.length = l.length := by
  intro l
  induction l with
  | nil => intro res; simp [applyLoop]
  | cons p rest ih =>
    intro res
    obtain ⟨idx, op⟩ := p
    simp only [applyLoop]
    cases h : applyOne res op.search op.replace with
    | some res2 => simp only [List.length_cons]; rw [← ih res2]; omega
    | none => simp only [List.length_cons, List.length_cons]; rw [← ih res]; omega

/-- C8: `applySearchReplace` is a total function (by construction of this
embedding, mirroring the code's throw-free branches); empty/missing
original content or operations short-circuit to the unchanged content with
`appliedCount = 0` and no failures; otherwise every processed operation
(the list is capped at 20) lands in exactly one of `appliedCount` and
`failedOps`. -/
theorem c8_empty_and_partition :
    ∀ (T : Str) (ops : List Op),
      ((T = [] ∨ ops = []) → applySearchReplace T ops = ⟨T, 0, []⟩)
      ∧ (T ≠ [] → ops ≠ [] →
          (applySearchReplace T ops).appliedCount
            + (applySearchReplace T ops).failedOps.length = (ops.take 20).length) := by
  intro T ops
  constructor
  · intro h
    simp only [applySearchReplace, if_pos h]
  · intro hT hops
    have hg : ¬(T = [] ∨ ops = []) := by simp [hT, hops]
    simp only [applySearchReplace, if_neg hg]
    rw [applyLoop_partition]
    simp

/-- Witness for `c8_empty_and_partition` at concrete inputs (one for each
conjunct). -/
theorem c8_empty_and_partition_witness :
    applySearchReplace "a".toList [] = ⟨"a".toList, 0, []⟩ ∧
    (applySearchReplace "a".toList [⟨"z".toList, "w".toList⟩]).appliedCount
      + (applySearchReplace "a".toList [⟨"z".toList, "w".toList⟩]).failedOps.length
      = (([⟨"z".toList, "w".toList⟩] : List Op).take 20).length :=
  ⟨(c8_empty_and_partition "a".toList []).1 (Or.inr rfl),
   (c8_empty_and_partition "a".toList [⟨"z".toList, "w".toList⟩]).2
     (by decide) (by decide)⟩

/-!
## Claim C9 — deduplication keeps first occurrences and is idempotent
-/

theorem dedupGo_filter_of_seen {p : Str} :
    ∀ (xs : List Artifact) (seen : List Str), p ∈ seen →
      (dedupGo seen xs).filter (fun a => a.path == p) = [] := by
  intro xs
  induction xs with
  | nil => intro seen _; simp [dedupGo]
  | cons a rest ih =>
    intro seen hp
    simp only [dedupGo]
    split
    · exact ih seen hp
    · rename_i hnot
      have hne : (a.path == p) = false := by
        simp only [beq_eq_false_iff_ne]
        intro he
        exact hnot (he ▸ hp)
      rw [List.filter_cons_of_neg (by simp [hne])]
      exact ih _ (List.mem_cons_of_mem _ hp)

theorem dedupGo_filter_of_not_seen {p : Str} :
    ∀ (xs : List Artifact) (seen : List Str), p ∉ seen →
      (dedupGo seen xs).filter (fun a => a.path == p)
        = (xs.filter (fun a => a.path == p)).take 1 := by
  intro xs
  induction xs with
  | nil => intro seen _; simp [dedupGo]
  | cons a rest ih =>
    intro seen hp
    simp only [dedupGo]
    by_cases hmem : a.path ∈ seen
    · rw [if_pos hmem]
      have hne : (a.path == p) = false := by
        simp only [beq_eq_false_iff_ne]
        intro he
        exact hp (he ▸ hmem)
      rw [List.filter_cons_of_neg (by simp [hne]), ih seen hp]
    · rw [if_neg hmem]
      by_cases heq : a.path = p
      · have hpt : (a.path == p) = true := by simp [heq]
        rw [List.filter_cons_of_pos (by simp [hpt]),
            List.filter_cons_of_pos (by simp [hpt])]
        rw [dedupGo_filter_of_seen rest (a.path :: seen) (heq ▸ List.mem_cons_self _ _)]
        simp
      · have hne : (a.path == p) = false := by simp [heq]
        rw [List.filter_cons_of_neg (by simp [hne]),
            List.filter_cons_of_neg (by simp [hne])]
        refine ih _ ?_
        simp only [List.mem_cons, not_or]
        exact ⟨fun h => heq h.symm, hp⟩

theorem dedupGo_sublist :
    ∀ (xs : List Artifact) (seen : List Str), (dedupGo seen xs).Sublist xs := by
  intro xs
  induction xs with
  | nil => intro seen; simp [dedupGo]
  | cons a rest ih =>
    intro seen
    simp only [dedupGo]
    split
    · exact (ih seen).cons a
    · exact (ih (a.path :: seen)).cons₂ a

theorem dedupGo_path_not_seen :
    ∀ (xs : List Artifact) (seen : List Str), ∀ b ∈ dedupGo seen xs, b.path ∉ seen := by
  intro xs
  induction xs with
  | nil => intro seen b hb; simp [dedupGo] at hb
  | cons a rest ih =>
    intro seen b hb
    simp only [dedupGo] at hb
    split at hb
    · exact ih seen b hb
    · rename_i hnot
      rcases List.mem_cons.mp hb with h | h
      · subst h; exact hnot
      · have := ih (a.path :: seen) b h
        intro hc
        exact this (List.mem_cons_of_mem _ hc)

theorem dedupGo_of_fresh :
    ∀ (ys : List Artifact) (seen : List Str),
      (ys.map Artifact.path).Nodup → (∀ b ∈ ys, b.path ∉ seen) →
      dedupGo seen ys = ys := by
  intro ys
  induction ys with
  | nil => intro seen _ _; simp [dedupGo]
  | cons a rest ih =>
    intro seen hnd hfresh
    rw [List.map_cons, List.nodup_cons] at hnd
    simp only [dedupGo]
    rw [if_neg (hfresh a (List.mem_cons_self _ _))]
    congr 1
    apply ih
    · exact hnd.2
    · intro b hb
      simp only [List.mem_cons, not_or]
      constructor
      · intro hc
        exact hnd.1 (hc ▸ List.mem_map_of_mem Artifact.path hb)
      · exact hfresh b (List.mem_cons_of_mem _ hb)

theorem dedupGo_paths_nodup :
    ∀ (xs : List Artifact) (seen : List Str),
      ((dedupGo seen xs).map Artifact.path).Nodup := by
  intro xs
  induction xs with
  | nil => intro seen; simp [dedupGo]
  | cons a rest ih =>
    intro seen
    simp only [dedupGo]
    split
    · exact ih seen
    · simp only [List.map_cons, List.nodup_cons]
      constructor
      · intro hc
        obtain ⟨b, hb, hbp⟩ := List.mem_map.mp hc
        exact dedupGo_path_not_seen rest (a.path :: seen) b hb
          (hbp ▸ List.mem_cons_self _ _)
      · exact ih (a.path :: seen)

/-- C9: `deduplicateArtifacts` keeps exactly the first artifact of each
path (for every path `p`, the survivors with path `p` are the first-one
take of the originals with path `p`), drops later duplicates while
preserving the relative order of kept elements (the output is a sublist of
the input), and is idempotent. -/
theorem c9_dedupe_first_wins_idempotent :
    ∀ (xs : List Artifact),
      (∀ p : Str, (deduplicateArtifacts xs).filter (fun a => a.path == p)
          = (xs.filter (fun a => a.path == p)).take 1)
      ∧ (deduplicateArtifacts xs).Sublist xs
      ∧ deduplicateArtifacts (deduplicateArtifacts xs) = deduplicateArtifacts xs := by
  intro xs
  refine ⟨fun p => dedupGo_filter_of_not_seen xs [] (by simp), dedupGo_sublist xs [], ?_⟩
  exact dedupGo_of_fresh (dedupGo [] xs) []
    (dedupGo_paths_nodup xs []) (fun b _ => by simp)

/-!
## Claim C6 — target-resolution cascade precedence
-/

/-- C6 counterexample: with more than 50 artifacts, an artifact beyond
index 50 that the earliest stage (exact normalized-path match) matches is
not returned — `findTargetFileForEdit` yields `none` although the staged
cascade over the whole list (`resolveTargetSpec`, the claim's wording)
finds the exact match. -/
theorem c6_counterexample :
    stage1 "b.js".toList (⟨"b.js".toList, []⟩ : Artifact) = true ∧
    resolveTargetSpec
        (List.replicate 55 (⟨"z.q".toList, []⟩ : Artifact) ++ [⟨"b.js".toList, []⟩])
        "b.js".toList = some ⟨"b.js".toList, []⟩ ∧
    findTargetFileForEdit
        (List.replicate 55 (⟨"z.q".toList, []⟩ : Artifact) ++ [⟨"b.js".toList, []⟩])
        "b.js".toList = none := by
  decide

/-- C6 (amended: for artifact lists of at most 50 entries, within the
code's cap): the resolver equals the staged cascade `resolveTargetSpec`
written from the claim's wording — exact normalized-path match first, then
basename, then substring containment, first artifact of the earliest
successful stage, `none` when no stage matches; and the claim's particular
example resolves to the exact-match artifact rather than the
basename-match candidate. -/
theorem c6_cascade_order :
    (∀ (artifacts : List Artifact) (p : Str), artifacts.length ≤ 50 →
      findTargetFileForEdit artifacts p = resolveTargetSpec artifacts p)
    ∧ findTargetFileForEdit
        [⟨"src/a.js".toList, []⟩, ⟨"a.js".toList, []⟩] "a.js".toList
        = some ⟨"a.js".toList, []⟩ := by
  constructor
  · intro arts p h
    by_cases he : arts = []
    · subst he; simp [findTargetFileForEdit, resolveTargetSpec]
    · simp only [findTargetFileForEdit, resolveTargetSpec, if_neg he,
        List.take_of_length_le h]
  · decide

/-- Witness for `c6_cascade_order` at a concrete input. -/
theorem c6_cascade_order_witness :
    ([⟨"m.css".toList, []⟩] : List Artifact).length ≤ 50 ∧
    findTargetFileForEdit [⟨"m.css".toList, []⟩] "m.css".toList
      = resolveTargetSpec [⟨"m.css".toList, []⟩] "m.css".toList :=
  ⟨by decide, c6_cascade_order.1 _ _ (by decide)⟩

/-!
## Claim C10 — only the first 50 artifacts are examined
-/

/-- C10: if no artifact among the first 50 matches any cascade stage, the
resolver returns `none` — no matter what artifacts (even exact path
matches) sit at index 50 or beyond. -/
theorem c10_only_first_50_examined :
    ∀ (artifacts : List Artifact) (p : Str),
      (∀ a ∈ artifacts.take 50,
        stage1 p a = false ∧ stage2 p a = false ∧ stage3 p a = false) →
      findTargetFileForEdit artifacts p = none := by
  intro arts p h
  by_cases he : arts = []
  · simp [he, findTargetFileForEdit]
  · have h1 : (arts.take 50).find? (stage1 p) = none :=
      List.find?_eq_none.mpr (fun x hx => by simp [(h x hx).1])
    have h2 : (arts.take 50).find? (stage2 p) = none :=
      List.find?_eq_none.mpr (fun x hx => by simp [(h x hx).2.1])
    have h3 : (arts.take 50).find? (stage3 p) = none :=
      List.find?_eq_none.mpr (fun x hx => by simp [(h x hx).2.2])
    simp only [findTargetFileForEdit, if_neg he, h1, h2, h3]

/-- Witness for `c10_only_first_50_examined`: 50 non-matching artifacts
followed by an exact path match, which is nevertheless not found. -/
theorem c10_only_first_50_examined_witness :
    (∀ a ∈ (List.replicate 50 (⟨"q.c".toList, []⟩ : Artifact)
        ++ [(⟨"main.rs".toList, []⟩ : Artifact)]).take 50,
      stage1 "main.rs".toList a = false ∧ stage2 "main.rs".toList a = false ∧
        stage3 "main.rs".toList a = false) ∧
    stage1 "main.rs".toList (⟨"main.rs".toList, []⟩ : Artifact) = true ∧
    findTargetFileForEdit
      (List.replicate 50 (⟨"q.c".toList, []⟩ : Artifact) ++ [(⟨"main.rs".toList, []⟩ : Artifact)])
      "main.rs".toList = none :=
  ⟨by decide, by decide, c10_only_first_50_examined _ _ (by decide)⟩

/-!
## Claim C2 — fuzzy line-trim fallback
-/

theorem splitOnChar_ne_nil (sep : Char) : ∀ s : Str, splitOnChar sep s ≠ [] := by
  intro s
  cases s with
  | nil => simp [splitOnChar]
  | cons c rest =>
    simp only [splitOnChar]
    split
    · simp
    · split <;> simp

theorem findFuzzyGo_eq_some {ls ts : List Str} :
    ∀ {m k : Nat}, k ≤ m → runMatches ls ts k = true →
      (∀ kk, k < kk → kk ≤ m → runMatches ls ts kk = false) →
      findFuzzyGo ls ts m = some k := by
  intro m
  induction m with
  | zero =>
    intro k hk hr _
    cases Nat.le_zero.mp hk
    simp [findFuzzyGo, hr]
  | succ m ih =>
    intro k hk hr hmax
    simp only [findFuzzyGo]
    by_cases hks : k = m + 1
    · subst hks; rw [if_pos hr]
    · have hk' : k ≤ m := Nat.lt_succ_iff.mp (Nat.lt_of_le_of_ne hk hks)
      rw [hmax (m + 1) (Nat.lt_succ_of_le hk') (Nat.le_refl _)]
      simp only [Bool.false_eq_true, if_false]
      exact ih hk' hr (fun kk h1 h2 => hmax kk h1 (Nat.le_succ_of_le h2))

theorem findFuzzyIdx_eq_some {ls ts : List Str} {k : Nat} (hts : 1 ≤ ts.length)
    (hr : runMatches ls ts k = true)
    (hmax : ∀ kk, k < kk → kk < ls.length → runMatches ls ts kk = false) :
    findFuzzyIdx ls ts = some k := by
  have hkb : k + ts.length ≤ ls.length := by
    have h := hr
    simp only [runMatches, Bool.and_eq_true, decide_eq_true_eq] at h
    exact h.1
  apply findFuzzyGo_eq_some (by omega) hr
  intro kk h1 h2
  exact hmax kk h1 (by omega)

/-- C2 counterexample: original `"\n  x"` and search `"x "` — the exact
substring stage fails, the fuzzy line-trim stage matches the run
consisting of the last line and the operation succeeds (so the
success/backward-scan part of the claim holds), but the matched run is
*not* replaced verbatim: because all lines before the matched run are
empty, their `join` is the empty (falsy) string and the code drops the
separating newline, returning `"y"` instead of `"\ny"`. -/
theorem c2_counterexample :
    lastIndexOf "\n  x".toList "x ".toList = none ∧
    runMatches (splitOnNl "\n  x".toList) ((splitOnNl "x ".toList).map trimStr) 1 = true ∧
    applySearchReplace "\n  x".toList [⟨"x ".toList, "y".toList⟩]
      = ⟨"y".toList, 1, []⟩ ∧
    joinNl ((splitOnNl "\n  x".toList).take 1 ++ ["y".toList]
        ++ (splitOnNl "\n  x".toList).drop 2) = "\ny".toList ∧
    "y".toList ≠ "\ny".toList := by
  decide

/-- C2 (amended): when the exact substring stage fails and a contiguous
run of lines matches the trimmed search lines, the single operation
succeeds (`appliedCount = 1`, no failed ops) at the first matching start
line found scanning backward from the end, and the result is the lines
before the run and the lines after the run joined around the verbatim
replace text — except that the newline separating the replace text from
the before (resp. after) side is dropped whenever that side joins to the
empty string.  The claim's particular example (`"  print('hi')\n"` with
search `"print('hi')"`) does report `appliedCount = 1`, though via the
exact stage, since the search is a plain substring of the original. -/
theorem c2_fuzzy_fallback :
    (∀ (T S R : Str) (k : Nat), T ≠ [] →
      lastIndexOf T S = none →
      runMatches (splitOnNl T) ((splitOnNl S).map trimStr) k = true →
      (∀ kk, k < kk → kk < (splitOnNl T).length →
        runMatches (splitOnNl T) ((splitOnNl S).map trimStr) kk = false) →
      applySearchReplace T [⟨S, R⟩]
        = ⟨joinNl ((splitOnNl T).take k)
            ++ (if joinNl ((splitOnNl T).take k) = [] then [] else ['\n'])
            ++ R
            ++ (if joinNl ((splitOnNl T).drop (k + (splitOnNl S).length)) = []
                then [] else ['\n'])
            ++ joinNl ((splitOnNl T).drop (k + (splitOnNl S).length)), 1, []⟩)
    ∧ (∀ R : Str,
        (applySearchReplace "  print(\x27hi\x27)\n".toList
          [⟨"print(\x27hi\x27)".toList, R⟩]).appliedCount = 1) := by
  constructor
  · intro T S R k hT hnone hr hmax
    have hg : ¬(T = [] ∨ ([(⟨S, R⟩ : Op)] : List Op) = []) := by simp [hT]
    have hts : 1 ≤ ((splitOnNl S).map trimStr).length := by
      rw [List.length_map]
      cases h : splitOnNl S with
      | nil => exact absurd h (splitOnChar_ne_nil '\n' S)
      | cons a l => simp
    have hfind : findFuzzyIdx (splitOnNl T) ((splitOnNl S).map trimStr) = some k :=
      findFuzzyIdx_eq_some hts hr hmax
    simp only [applySearchReplace, if_neg hg]
    show applyLoop [(0, ⟨S, R⟩)] T = _
    simp only [applyLoop, applyOne, hnone, hfind, fuzzyReplace, List.length_map]
  · intro R
    rw [applySearchReplace_single (by decide)
      (show lastIndexOf "  print(\x27hi\x27)\n".toList "print(\x27hi\x27)".toList
        = some 2 by decide)]

/-- Witness for `c2_fuzzy_fallback` at a concrete input (both parts). -/
theorem c2_fuzzy_fallback_witness :
    ("ab\n  cd".toList ≠ ([] : Str)
      ∧ lastIndexOf "ab\n  cd".toList "cd ".toList = none
      ∧ runMatches (splitOnNl "ab\n  cd".toList)
          ((splitOnNl "cd ".toList).map trimStr) 1 = true)
    ∧ applySearchReplace "ab\n  cd".toList [⟨"cd ".toList, "Z".toList⟩]
        = ⟨joinNl ((splitOnNl "ab\n  cd".toList).take 1)
            ++ (if joinNl ((splitOnNl "ab\n  cd".toList).take 1) = [] then [] else ['\n'])
            ++ "Z".toList
            ++ (if joinNl ((splitOnNl "ab\n  cd".toList).drop
                  (1 + (splitOnNl "cd ".toList).length)) = [] then [] else ['\n'])
            ++ joinNl ((splitOnNl "ab\n  cd".toList).drop
                  (1 + (splitOnNl "cd ".toList).length)), 1, []⟩
    ∧ (applySearchReplace "  print(\x27hi\x27)\n".toList
        [⟨"print(\x27hi\x27)".toList, "Q".toList⟩]).appliedCount = 1 :=
  ⟨⟨by decide, by decide, by decide⟩,
   c2_fuzzy_fallback.1 _ _ _ 1 (by decide) (by decide) (by decide)
     (by
       intro kk h1 h2
       have hlen : (splitOnNl "ab\n  cd".toList).length = 2 := by decide
       rw [hlen] at h2
       omega),
   c2_fuzzy_fallback.2 "Q".toList⟩

/-!
## Claim C5 — order-independence of non-overlapping edits
-/

/-- C5 counterexample: in `"ab"` the search texts `"a"` and `"b"` occur as
non-overlapping substrings (at offsets 0 and 1), yet the two input orders
of the operations `a → X` and `b → a` give different final strings,
because the second replacement text re-creates an occurrence of the other
operation's search text (`"aX"` for one order, `"Xa"` for the other). -/
theorem c5_counterexample :
    occursAt "ab".toList "a".toList 0 = true ∧
    occursAt "ab".toList "b".toList 1 = true ∧
    0 + ("a".toList).length ≤ 1 ∧
    (applySearchReplace "ab".toList
        [⟨"a".toList, "X".toList⟩, ⟨"b".toList, "a".toList⟩]).result
      ≠ (applySearchReplace "ab".toList
        [⟨"b".toList, "a".toList⟩, ⟨"a".toList, "X".toList⟩]).result := by
  decide

/-- Splicing at two disjoint regions commutes, with the later region's
offset shifted by the first replacement's length difference. -/
theorem splice_comm {T R1 R2 : Str} {i j L1 L2 : Nat}
    (hij : i + L1 ≤ j) (hj : j ≤ T.length) :
    splice (splice T j L2 R2) i L1 R1
      = splice (splice T i L1 R1) (j + R1.length - L1) L2 R2 := by
  have hiT : i ≤ T.length := by omega
  have hjt : (T.take j).length = j := by rw [List.length_take]; omega
  have hit : (T.take i).length = i := by rw [List.length_take]; omega
  have htake_ij : List.take i (T.take j) = T.take i := by
    rw [List.take_take]; congr 1; omega
  have hdrop_ij : List.drop (i + L1) (T.take j)
      = List.take (j - (i + L1)) (T.drop (i + L1)) := List.drop_take j (i + L1) T
  have hA : List.take i (T.take j ++ R2 ++ T.drop (j + L2)) = T.take i := by
    simp only [List.take_append_eq_append_take]
    rw [htake_ij]
    have e2 : i - (T.take j).length = 0 := by rw [hjt]; omega
    have e3 : i - (T.take j ++ R2).length = 0 := by
      rw [List.length_append, hjt]; omega
    rw [e2, e3]
    simp
  have hB : List.drop (i + L1) (T.take j ++ R2 ++ T.drop (j + L2))
      = List.take (j - (i + L1)) (T.drop (i + L1)) ++ R2 ++ T.drop (j + L2) := by
    simp only [List.drop_append_eq_append_drop]
    rw [hdrop_ij]
    have e1 : i + L1 - (T.take j).length = 0 := by rw [hjt]; omega
    have e2 : i + L1 - (T.take j ++ R2).length = 0 := by
      rw [List.length_append, hjt]; omega
    rw [e1, e2]
    simp
  have hC : List.take (j + R1.length - L1) (T.take i ++ R1 ++ T.drop (i + L1))
      = T.take i ++ R1 ++ List.take (j - (i + L1)) (T.drop (i + L1)) := by
    simp only [List.take_append_eq_append_take]
    have e1 : List.take (j + R1.length - L1) (T.take i) = T.take i :=
      List.take_of_length_le (by rw [hit]; omega)
    have e2 : List.take (j + R1.length - L1 - (T.take i).length) R1 = R1 :=
      List.take_of_length_le (by rw [hit]; omega)
    have e3 : j + R1.length - L1 - (T.take i ++ R1).length = j - (i + L1) := by
      rw [List.length_append, hit]; omega
    rw [e1, e2, e3]
  have hD : List.drop (j + R1.length - L1 + L2) (T.take i ++ R1 ++ T.drop (i + L1))
      = T.drop (j + L2) := by
    simp only [List.drop_append_eq_append_drop]
    have e1 : List.drop (j + R1.length - L1 + L2) (T.take i) = [] :=
      List.drop_eq_nil_of_le (by rw [hit]; omega)
    have e2 : List.drop (j + R1.length - L1 + L2 - (T.take i).length) R1 = [] :=
      List.drop_eq_nil_of_le (by rw [hit]; omega)
    have e3 : j + R1.length - L1 + L2 - (T.take i ++ R1).length = j - (i + L1) + L2 := by
      rw [List.length_append, hit]; omega
    have e4 : List.drop (j - (i + L1) + L2) (T.drop (i + L1)) = T.drop (j + L2) := by
      rw [List.drop_drop]
      congr 1
      omega
    rw [e1, e2, e3, e4]
    simp
  show List.take i (T.take j ++ R2 ++ T.drop (j + L2)) ++ R1
        ++ List.drop (i + L1) (T.take j ++ R2 ++ T.drop (j + L2))
      = List.take (j + R1.length - L1) (T.take i ++ R1 ++ T.drop (i + L1)) ++ R2
        ++ List.drop (j + R1.length - L1 + L2) (T.take i ++ R1 ++ T.drop (i + L1))
  rw [hA, hB, hC, hD]
  simp [List.append_assoc]

/-- C5 (amended): order-independence holds for two operations whose
searches' rightmost occurrences in `T` are disjoint (the first ending at
or before the second starts), provided the operations do not interact —
applying either one leaves the other's rightmost-occurrence position
unchanged (up to the index shift its replacement causes).  Then both input
orders produce the same `applySearchReplace` output. -/
theorem c5_nonoverlap_commute :
    ∀ (T S1 R1 S2 R2 : Str) (i j : Nat),
      T ≠ [] →
      lastIndexOf T S1 = some i →
      lastIndexOf T S2 = some j →
      i + S1.length ≤ j →
      lastIndexOf (splice T j S2.length R2) S1 = some i →
      lastIndexOf (splice T i S1.length R1) S2 = some (j + R1.length - S1.length) →
      applySearchReplace T [⟨S1, R1⟩, ⟨S2, R2⟩]
        = applySearchReplace T [⟨S2, R2⟩, ⟨S1, R1⟩] := by
  intro T S1 R1 S2 R2 i j hT h1 h2 hij hU hV
  obtain ⟨hjT, _, _⟩ := lastIndexOf_spec h2
  have hg1 : ¬(T = [] ∨ ([⟨S1, R1⟩, ⟨S2, R2⟩] : List Op) = []) := by simp [hT]
  have hg2 : ¬(T = [] ∨ ([⟨S2, R2⟩, ⟨S1, R1⟩] : List Op) = []) := by simp [hT]
  have eU : applyOne T S2 R2 = some (splice T j S2.length R2) := by
    unfold applyOne
    rw [h2]
    rfl
  have eU2 : applyOne (splice T j S2.length R2) S1 R1
      = some (splice (splice T j S2.length R2) i S1.length R1) := by
    unfold applyOne
    rw [hU]
    rfl
  have eV : applyOne T S1 R1 = some (splice T i S1.length R1) := by
    unfold applyOne
    rw [h1]
    rfl
  have eV2 : applyOne (splice T i S1.length R1) S2 R2
      = some (splice (splice T i S1.length R1) (j + R1.length - S1.length)
          S2.length R2) := by
    unfold applyOne
    rw [hV]
    rfl
  simp only [applySearchReplace, if_neg hg1, if_neg hg2]
  show applyLoop [(1, ⟨S2, R2⟩), (0, ⟨S1, R1⟩)] T
      = applyLoop [(1, ⟨S1, R1⟩), (0, ⟨S2, R2⟩)] T
  simp only [applyLoop, eU, eU2, eV, eV2]
  rw [splice_comm hij hjT]

/-- Witness for `c5_nonoverlap_commute` at a concrete input. -/
theorem c5_nonoverlap_commute_witness :
    ("AxB".toList ≠ ([] : Str)
      ∧ lastIndexOf "AxB".toList "A".toList = some 0
      ∧ lastIndexOf "AxB".toList "B".toList = some 2
      ∧ 0 + ("A".toList).length ≤ 2
      ∧ lastIndexOf (splice "AxB".toList 2 ("B".toList).length "D".toList)
          "A".toList = some 0
      ∧ lastIndexOf (splice "AxB".toList 0 ("A".toList).length "C".toList)
          "B".toList = some (2 + ("C".toList).length - ("A".toList).length))
    ∧ applySearchReplace "AxB".toList [⟨"A".toList, "C".toList⟩, ⟨"B".toList, "D".toList⟩]
        = applySearchReplace "AxB".toList
            [⟨"B".toList, "D".toList⟩, ⟨"A".toList, "C".toList⟩] :=
  ⟨⟨by decide, by decide, by decide, by decide, by decide, by decide⟩,
   c5_nonoverlap_commute _ _ _ _ _ 0 2 (by decide) (by decide) (by decide)
     (by decide) (by decide) (by decide)⟩

/-!
## Claim C3 — operation-count caps of the parsed edit groups
-/

theorem srLoop_length : ∀ (n : Nat) (s : Str), (srLoop n s).length ≤ n := by
  intro n
  induction n with
  | zero => intro s; simp [srLoop]
  | succ n ih =>
    intro s
    simp only [srLoop]
    split
    · simp
    · simpa using Nat.succ_le_succ (ih _)

theorem parseSearchReplace_le_ten (s : Str) : (parseSearchReplace s).length ≤ 10 := by
  unfold parseSearchReplace
  split
  · simp
  · exact srLoop_length 10 s

theorem scanEditBlocksGo_length : ∀ (n : Nat) (s : Str),
    (scanEditBlocksGo n s).length ≤ n := by
  intro n
  induction n with
  | zero => intro s; simp [scanEditBlocksGo]
  | succ n ih =>
    intro s
    simp only [scanEditBlocksGo]
    split
    · simp
    · simpa using Nat.succ_le_succ (ih _)

theorem insertOps_bound {groups : List EditGroup} {p : Str} {ops : List Op} {n m : Nat}
    (hg : ∀ g ∈ groups, g.operations.length ≤ n) (hops : ops.length ≤ m) :
    ∀ g ∈ insertOps groups p ops, g.operations.length ≤ n + m := by
  induction groups with
  | nil =>
    intro g hgm
    simp only [insertOps, List.mem_singleton] at hgm
    subst hgm
    simp only []
    omega
  | cons a rest ih =>
    intro g hgm
    simp only [insertOps] at hgm
    split at hgm
    · rcases List.mem_cons.mp hgm with h | h
      · subst h
        simp only [List.length_append]
        have := hg a (List.mem_cons_self _ _)
        omega
      · have := hg g (List.mem_cons_of_mem _ h)
        omega
    · rcases List.mem_cons.mp hgm with h | h
      · subst h
        have := hg g (List.mem_cons_self _ _)
        omega
      · exact ih (fun g' hg' => hg g' (List.mem_cons_of_mem _ hg')) g h

theorem buildGroups_bound :
    ∀ (bs : List Str) (acc : List EditGroup) (n : Nat),
      (∀ g ∈ acc, g.operations.length ≤ n) →
      ∀ g ∈ buildGroups bs acc, g.operations.length ≤ n + 10 * bs.length := by
  intro bs
  induction bs with
  | nil =>
    intro acc n hacc g hgm
    simp only [buildGroups] at hgm
    simpa using hacc g hgm
  | cons b rest ih =>
    intro acc n hacc g hgm
    simp only [buildGroups] at hgm
    split at hgm
    · have := ih acc n hacc g hgm
      simp only [List.length_cons]
      omega
    · have hins : ∀ g' ∈ insertOps acc (jsOrUnknown (blockTarget b).1)
          (parseSearchReplace (blockTarget b).2), g'.operations.length ≤ n + 10 :=
        insertOps_bound hacc (parseSearchReplace_le_ten _)
      have := ih _ (n + 10) hins g hgm
      simp only [List.length_cons]
      omega

/-- C3 (amended): each parsed edit block contributes at most 10 operations
(the `parseSearchReplace` cap), but merging blocks that declare the same
path concatenates their operation lists without re-capping, so an
`EditGroup` is bounded by 10 operations per block times the 5-block limit:
at most 50 operations, not 10. -/
theorem c3_operation_caps :
    (∀ s : Str, (parseSearchReplace s).length ≤ 10)
    ∧ (∀ (message : Str) (g : EditGroup), g ∈ parseLLMResponseEdits message →
        g.operations.length ≤ 50) := by
  refine ⟨parseSearchReplace_le_ten, ?_⟩
  intro message g hgm
  unfold parseLLMResponseEdits at hgm
  split at hgm
  · simp at hgm
  · have hmem : g ∈ buildGroups (scanEditBlocks (truncateMessage message)) [] :=
      List.mem_of_mem_take hgm
    have hb := buildGroups_bound (scanEditBlocks (truncateMessage message)) [] 0
      (by simp) g hmem
    have hlen : (scanEditBlocks (truncateMessage message)).length ≤ 5 :=
      scanEditBlocksGo_length 5 _
    omega

set_option maxRecDepth 80000

/-- C3 counterexample: a message with two edit blocks declaring the same
path (`a.py`), six SEARCH/REPLACE operations each.  The blocks are merged
into a single `EditGroup` whose operation list has 12 entries — more than
the claimed cap of 10 (which the code applies only per block, not per
merged group). -/
theorem c3_counterexample :
    (parseLLMResponseEdits ("\x60\x60\x60edit\n@@@ a.py\n<<<<<<< SEARCH\ns1\n=======\nr1\n>>>>>>> REPLACE\n<<<<<<< SEARCH\ns2\n=======\nr2\n>>>>>>> REPLACE\n<<<<<<< SEARCH\ns3\n=======\nr3\n>>>>>>> REPLACE\n<<<<<<< SEARCH\ns4\n=======\nr4\n>>>>>>> REPLACE\n<<<<<<< SEARCH\ns5\n=======\nr5\n>>>>>>> REPLACE\n<<<<<<< SEARCH\ns6\n=======\nr6\n>>>>>>> REPLACE\n\x60\x60\x60\n\x60\x60\x60edit\n@@@ a.py\n<<<<<<< SEARCH\ns7\n=======\nr7\n>>>>>>> REPLACE\n<<<<<<< SEARCH\ns8\n=======\nr8\n>>>>>>> REPLACE\n<<<<<<< SEARCH\ns9\n=======\nr9\n>>>>>>> REPLACE\n<<<<<<< SEARCH\nsA\n=======\nrA\n>>>>>>> REPLACE\n<<<<<<< SEARCH\nsB\n=======\nrB\n>>>>>>> REPLACE\n<<<<<<< SEARCH\nsC\n=======\nrC\n>>>>>>> REPLACE\n\x60\x60\x60").toList).map
      (fun g => (g.path, g.operations.length)) = [("a.py".toList, 12)] := by
  decide

/-- Witness for `c3_operation_caps` at a concrete message with one edit
block containing one operation. -/
theorem c3_operation_caps_witness :
    (parseSearchReplace "<<<<<<< SEARCH\nalpha\n=======\nbeta\n>>>>>>> REPLACE".toList).length
      ≤ 10 ∧
    (⟨"w.py".toList, [⟨"alpha".toList, "beta".toList⟩]⟩ : EditGroup) ∈
      (parseLLMResponseEdits
        ("\x60\x60\x60edit\n@@@ w.py\n<<<<<<< SEARCH\nalpha\n=======\nbeta\n>>>>>>> REPLACE\n\x60\x60\x60").toList
        : List EditGroup) ∧
    (⟨"w.py".toList, [⟨"alpha".toList, "beta".toList⟩]⟩ : EditGroup).operations.length ≤ 50 :=
  ⟨c3_operation_caps.1 _, by decide,
   c3_operation_caps.2
     ("\x60\x60\x60edit\n@@@ w.py\n<<<<<<< SEARCH\nalpha\n=======\nbeta\n>>>>>>> REPLACE\n\x60\x60\x60").toList
     _ (by decide)⟩
